import Mathlib

/-!
Verification of the `otk` Odoo developer toolkit: a shallow embedding of the
XML view linter (`otk/commands/lint.py`), the view-extension merge engine
(`otk/commands/extend.py`) and the XML append helpers (`otk/commands/add_xml.py`),
together with theorems settling the specified behaviour of each component.

XML documents are modelled as ordered element trees carrying the data the
source consults through lxml: tag, ordered attribute list, text content and
source line.  lxml search primitives (`findall`, `find`, `xpath` with the
path shapes actually used by the source) are translated into executable
preorder searches over these trees.
-/

namespace Otk

/-- An XML element as seen through lxml: tag, ordered attributes, text content
(text before the first child; empty string stands for lxml's `None`), source
line number and ordered children. -/
inductive Elem : Type where
  | mk : String → List (String × String) → String → Nat → List Elem → Elem

/-- Tag of an element. -/
def Elem.tag : Elem → String
  | .mk t _ _ _ _ => t

/-- Attribute list of an element. -/
def Elem.attrList : Elem → List (String × String)
  | .mk _ a _ _ _ => a

/-- Text content of an element (empty = lxml `None`). -/
def Elem.text : Elem → String
  | .mk _ _ tx _ _ => tx

/-- Source line of an element. -/
def Elem.line : Elem → Nat
  | .mk _ _ _ ln _ => ln

/-- Children of an element. -/
def Elem.children : Elem → List Elem
  | .mk _ _ _ _ cs => cs

/-- First binding of a key in an attribute list (XML attributes are unique;
lxml's `element.get(key)`). -/
def lookupAttr (k : String) : List (String × String) → Option String
  | [] => none
  | (a, v) :: rest => if a == k then some v else lookupAttr k rest

/-- `element.get(key)` of lxml. -/
def Elem.getAttr (e : Elem) (k : String) : Option String :=
  lookupAttr k e.attrList

/-- Python truthiness of an optional string: `None` and the empty string are
falsy. -/
def falsyStr : Option String → Bool
  | none => true
  | some s => s.isEmpty

/-- Python truthiness of `element.get(key)`. -/
def Elem.truthyAttr (e : Elem) (k : String) : Bool :=
  !(falsyStr (e.getAttr k))

mutual

/-- Strict descendants of an element in document (preorder) order: what the
lxml paths `.//...` range over. -/
def descendants : Elem → List Elem
  | .mk _ _ _ _ cs => descendantsList cs

/-- Concatenated self-plus-descendants of a list of sibling elements, in
document order. -/
def descendantsList : List Elem → List Elem
  | [] => []
  | c :: cs => c :: (descendants c ++ descendantsList cs)

end

/-- The element itself followed by its strict descendants: what an absolute
lxml path `//...` evaluated from the document root ranges over. -/
def descOrSelf (e : Elem) : List Elem :=
  e :: descendants e

mutual

/-- First strict descendant (document order) satisfying `p`: lxml's
`element.find(".//...")` and the first element of `element.xpath(".//...")`. -/
def findFirstDesc (p : Elem → Bool) : Elem → Option Elem
  | .mk _ _ _ _ cs => findFirstDescList p cs

/-- First element, in document order over a sibling list and everything below
it, satisfying `p`. -/
def findFirstDescList (p : Elem → Bool) : List Elem → Option Elem
  | [] => none
  | c :: cs =>
    if p c then some c
    else
      match findFirstDesc p c with
      | some r => some r
      | none => findFirstDescList p cs

end

mutual

/-- Replace the first strict descendant (document order) satisfying `p` by its
image under `f`; `none` when no descendant matches.  This is the functional
rendering of lxml's in-place mutation of the element found by
`find(".//...")`. -/
def updateFirstDesc (p : Elem → Bool) (f : Elem → Elem) : Elem → Option Elem
  | .mk t a tx ln cs =>
    match updateFirstDescList p f cs with
    | some cs2 => some (.mk t a tx ln cs2)
    | none => none

/-- List version of `updateFirstDesc`, over a sibling list. -/
def updateFirstDescList (p : Elem → Bool) (f : Elem → Elem) : List Elem → Option (List Elem)
  | [] => none
  | c :: cs =>
    if p c then some (f c :: cs)
    else
      match updateFirstDesc p f c with
      | some c2 => some (c2 :: cs)
      | none =>
        match updateFirstDescList p f cs with
        | some cs2 => some (c :: cs2)
        | none => none

end

/-- Direct-child search: lxml's `element.find("tag[@k='v']")` (no `.//`),
first matching direct child. -/
def findChild (p : Elem → Bool) (e : Elem) : Option Elem :=
  e.children.find? p

/-! ### String constants used by the source -/

def litRecord : String := "record"
def litModel : String := "model"
def litIrUiView : String := "ir.ui.view"
def litField : String := "field"
def litName : String := "name"
def litInheritId : String := "inherit_id"
def litRef : String := "ref"
def litArch : String := "arch"
def litId : String := "id"

/-! ### The merge engine (`otk/commands/extend.py`) -/

/-- An element matched by `root.findall(".//record[@model='ir.ui.view']")`:
tag `record` with attribute `model` equal to `ir.ui.view`. -/
def isViewRecordElem (e : Elem) : Bool :=
  e.tag == litRecord && e.getAttr litModel == some litIrUiView

/-- An element matched by the path step `field[@name='arch']`. -/
def isArchField (e : Elem) : Bool :=
  e.tag == litField && e.getAttr litName == some litArch

/-- An element matched by the path step `field[@name='inherit_id']`. -/
def isInheritField (e : Elem) : Bool :=
  e.tag == litField && e.getAttr litName == some litInheritId

/-- The per-record test of `_find_and_update_view_file`: the record has a
direct child `field[@name='inherit_id']` whose `ref` attribute equals the
target view id. -/
def isMatchingRecord (viewId : String) (e : Elem) : Bool :=
  isViewRecordElem e &&
    match findChild isInheritField e with
    | some f => f.getAttr litRef == some viewId
    | none => false

/-- `parent.append(child)` of lxml: the fragment becomes the last child. -/
def appendChild (frag : Elem) : Elem → Elem
  | .mk t a tx ln cs => .mk t a tx ln (cs ++ [frag])

/-- Append `frag` as last child of the first `field[@name='arch']` descendant
of a record (identity when the record has no such descendant, a case the
caller has already excluded). -/
def appendToArch (frag : Elem) (r : Elem) : Elem :=
  (updateFirstDesc isArchField (appendChild frag) r).getD r

/-- A candidate view file: file name paired with its parse result (`none`
models an `etree.XMLSyntaxError` on `etree.parse`, which the source skips). -/
abbrev XmlFile : Type := String × Option Elem

/-- The body of the per-file loop of `_find_and_update_view_file`, for a file
that parsed to `root`.  `frag` is the parse result of
`etree.fromstring(new_xpath_str)`; `none` models the `XMLSyntaxError` it
raises on a malformed fragment, which the surrounding handler turns into
`continue`.  Returns the rewritten root when the file is updated and written,
`none` when the loop moves on to the next file. -/
def processFile (viewId : String) (frag : Option Elem) (root : Elem) : Option Elem :=
  match findFirstDesc (isMatchingRecord viewId) root with
  | none => none
  | some r =>
    match findFirstDesc isArchField r with
    | none => none
    | some _ =>
      match frag with
      | none => none
      | some f => updateFirstDesc (isMatchingRecord viewId) (appendToArch f) root

/-- `_find_and_update_view_file`: walk the candidate files in order; update and
persist the first one whose first matching record can take the fragment, and
stop.  Returns the resulting file set and the function's boolean result. -/
def find_and_update_view_file (viewId : String) (frag : Option Elem) :
    List XmlFile → List XmlFile × Bool
  | [] => ([], false)
  | (nm, doc) :: rest =>
    match doc with
    | none =>
      let (rest2, b) := find_and_update_view_file viewId frag rest
      ((nm, none) :: rest2, b)
    | some root =>
      match processFile viewId frag root with
      | some root2 => ((nm, some root2) :: rest, true)
      | none =>
        let (rest2, b) := find_and_update_view_file viewId frag rest
        ((nm, some root) :: rest2, b)

/-- The tail of the `view` command of `extend.py`: run the search-and-update,
and when it reports no update, render `inherited_view.xml.j2` to a new file
(`newFile` stands for that rendered file). -/
def extend_view_files (files : List XmlFile) (viewId : String) (frag : Option Elem)
    (newFile : XmlFile) : List XmlFile :=
  let (files2, updated) := find_and_update_view_file viewId frag files
  if updated then files2 else files2 ++ [newFile]

/-! ### Structural lemmas about the search and update primitives -/

/-- Shallow projection of an element: the data an lxml path step can test. -/
def shp (e : Elem) : String × List (String × String) :=
  (e.tag, e.attrList)

theorem getAttr_shp (x y : Elem) (h : shp x = shp y) (k : String) :
    x.getAttr k = y.getAttr k := by
  have : x.attrList = y.attrList := congrArg Prod.snd h
  simp [Elem.getAttr, this]

theorem updateFirstDesc_shape (p : Elem → Bool) (f : Elem → Elem) (e e2 : Elem)
    (h : updateFirstDesc p f e = some e2) :
    shp e2 = shp e ∧ updateFirstDescList p f e.children = some e2.children := by
  cases e with
  | mk t a tx ln cs =>
    simp only [updateFirstDesc] at h
    cases hl : updateFirstDescList p f cs with
    | none => rw [hl] at h; exact absurd h (by simp)
    | some cs2 =>
      rw [hl] at h
      cases h
      exact ⟨rfl, hl⟩

theorem updateFirstDescList_shp (p : Elem → Bool) (f : Elem → Elem)
    (hf : ∀ x, shp (f x) = shp x) :
    ∀ cs cs2 : List Elem, updateFirstDescList p f cs = some cs2 →
      cs2.map shp = cs.map shp := by
  intro cs
  induction cs with
  | nil => intro cs2 h; simp [updateFirstDescList] at h
  | cons c cs ih =>
    intro cs2 h
    simp only [updateFirstDescList] at h
    by_cases hpc : p c = true
    · rw [if_pos hpc] at h
      cases h
      simp [hf]
    · rw [if_neg hpc] at h
      cases hc : updateFirstDesc p f c with
      | some c2 =>
        rw [hc] at h
        cases h
        have := (updateFirstDesc_shape p f c c2 hc).1
        simp [this]
      | none =>
        rw [hc] at h
        cases hcs : updateFirstDescList p f cs with
        | some cs3 =>
          rw [hcs] at h
          cases h
          simp [ih cs3 hcs]
        | none => rw [hcs] at h; exact absurd h (by simp)

/-- `updateFirstDesc` preserves the shallow projection of every element on the
path down to the replaced node, and in particular the children's shallow
projections of the element it is applied to. -/
theorem updateFirstDesc_children_shp (p : Elem → Bool) (f : Elem → Elem)
    (hf : ∀ x, shp (f x) = shp x) (e e2 : Elem)
    (h : updateFirstDesc p f e = some e2) :
    e2.children.map shp = e.children.map shp :=
  updateFirstDescList_shp p f hf e.children e2.children
    (updateFirstDesc_shape p f e e2 h).2

mutual

theorem updateFirst_isSome (p : Elem → Bool) (f : Elem → Elem) :
    ∀ e : Elem, (updateFirstDesc p f e).isSome = (findFirstDesc p e).isSome
  | .mk t a tx ln cs => by
    simp only [updateFirstDesc, findFirstDesc]
    have h := updateFirstList_isSome p f cs
    cases hl : updateFirstDescList p f cs with
    | none => rw [hl] at h; simpa using h.symm
    | some cs2 => rw [hl] at h; simpa using h.symm

theorem updateFirstList_isSome (p : Elem → Bool) (f : Elem → Elem) :
    ∀ cs : List Elem,
      (updateFirstDescList p f cs).isSome = (findFirstDescList p cs).isSome
  | [] => by simp [updateFirstDescList, findFirstDescList]
  | c :: cs => by
    simp only [updateFirstDescList, findFirstDescList]
    by_cases hpc : p c = true
    · simp [hpc]
    · rw [if_neg hpc, if_neg hpc]
      have h1 := updateFirst_isSome p f c
      cases hc : updateFirstDesc p f c with
      | some c2 =>
        rw [hc] at h1
        cases hfc : findFirstDesc p c with
        | some r => simp
        | none => rw [hfc] at h1; simp at h1
      | none =>
        rw [hc] at h1
        cases hfc : findFirstDesc p c with
        | some r => rw [hfc] at h1; simp at h1
        | none =>
          have h2 := updateFirstList_isSome p f cs
          cases hcs : updateFirstDescList p f cs with
          | some cs2 => rw [hcs] at h2; simpa using h2
          | none => rw [hcs] at h2; simpa using h2

end

theorem find?_congr_shp (q : Elem → Bool) (hq : ∀ x y, shp x = shp y → q x = q y) :
    ∀ cs cs2 : List Elem, cs2.map shp = cs.map shp →
      (cs2.find? q).map shp = (cs.find? q).map shp := by
  intro cs
  induction cs with
  | nil => intro cs2 h; simp at h; simp [h]
  | cons c cs ih =>
    intro cs2 h
    cases cs2 with
    | nil => simp at h
    | cons d ds =>
      simp only [List.map_cons, List.cons.injEq] at h
      have hqd : q d = q c := hq d c h.1
      by_cases hc : q c = true
      · simp [List.find?_cons, hc, hqd, h.1]
      · have hd : q d = false := by rw [hqd]; exact eq_false_of_ne_true hc
        have hc2 : q c = false := eq_false_of_ne_true hc
        simp only [List.find?_cons, hd, hc2]
        exact ih ds h.2

theorem isViewRecordElem_congr (x y : Elem) (h : shp x = shp y) :
    isViewRecordElem x = isViewRecordElem y := by
  have ht : x.tag = y.tag := congrArg Prod.fst h
  simp [isViewRecordElem, ht, getAttr_shp x y h]

theorem isArchField_congr (x y : Elem) (h : shp x = shp y) :
    isArchField x = isArchField y := by
  have ht : x.tag = y.tag := congrArg Prod.fst h
  simp [isArchField, ht, getAttr_shp x y h]

theorem isInheritField_congr (x y : Elem) (h : shp x = shp y) :
    isInheritField x = isInheritField y := by
  have ht : x.tag = y.tag := congrArg Prod.fst h
  simp [isInheritField, ht, getAttr_shp x y h]

/-- Whether a record matches a target view id depends only on the record's own
tag and attributes and its direct children's tags and attributes. -/
theorem isMatchingRecord_congr (viewId : String) (x y : Elem) (h1 : shp x = shp y)
    (h2 : x.children.map shp = y.children.map shp) :
    isMatchingRecord viewId x = isMatchingRecord viewId y := by
  have hv := isViewRecordElem_congr x y h1
  have hfind := find?_congr_shp isInheritField
    (fun a b hab => isInheritField_congr a b hab) y.children x.children h2
  simp only [isMatchingRecord, findChild, hv]
  cases hx : x.children.find? isInheritField with
  | none =>
    rw [hx] at hfind
    cases hy : y.children.find? isInheritField with
    | none => rfl
    | some fy => rw [hy] at hfind; simp at hfind
  | some fx =>
    rw [hx] at hfind
    cases hy : y.children.find? isInheritField with
    | none => rw [hy] at hfind; simp at hfind
    | some fy =>
      rw [hy] at hfind
      simp only [Option.map] at hfind
      have hfi : shp fx = shp fy := (Option.some.injEq _ _).mp hfind
      have := getAttr_shp fx fy hfi litRef
      simp [this]

mutual

/-- After a successful `updateFirstDesc`, the first match of `p` in the new
tree is the image under `f` of the first match in the old tree, provided `f`
keeps shallow data intact, `p` only looks at an element's and its children's
shallow data, and `f` preserves `p`. -/
theorem findFirst_update (p : Elem → Bool) (f : Elem → Elem)
    (hf : ∀ x, shp (f x) = shp x)
    (hp : ∀ x y, shp x = shp y → x.children.map shp = y.children.map shp → p x = p y)
    (hpf : ∀ x, p x = true → p (f x) = true) :
    ∀ e e2 : Elem, updateFirstDesc p f e = some e2 →
      ∃ r, findFirstDesc p e = some r ∧ findFirstDesc p e2 = some (f r)
  | .mk t a tx ln cs, e2, h => by
    simp only [updateFirstDesc] at h
    cases hl : updateFirstDescList p f cs with
    | none => rw [hl] at h; exact absurd h (by simp)
    | some cs2 =>
      rw [hl] at h
      cases h
      simp only [findFirstDesc]
      exact findFirstList_update p f hf hp hpf cs cs2 hl

theorem findFirstList_update (p : Elem → Bool) (f : Elem → Elem)
    (hf : ∀ x, shp (f x) = shp x)
    (hp : ∀ x y, shp x = shp y → x.children.map shp = y.children.map shp → p x = p y)
    (hpf : ∀ x, p x = true → p (f x) = true) :
    ∀ cs cs2 : List Elem, updateFirstDescList p f cs = some cs2 →
      ∃ r, findFirstDescList p cs = some r ∧ findFirstDescList p cs2 = some (f r)
  | [], cs2, h => by simp [updateFirstDescList] at h
  | c :: cs, cs2, h => by
    simp only [updateFirstDescList] at h
    by_cases hpc : p c = true
    · rw [if_pos hpc] at h
      cases h
      refine ⟨c, ?_, ?_⟩
      · simp [findFirstDescList, hpc]
      · simp [findFirstDescList, hpf c hpc]
    · rw [if_neg hpc] at h
      cases hc : updateFirstDesc p f c with
      | some c2 =>
        rw [hc] at h
        cases h
        obtain ⟨r, hr1, hr2⟩ := findFirst_update p f hf hp hpf c c2 hc
        have hshape := (updateFirstDesc_shape p f c c2 hc).1
        have hch := updateFirstDesc_children_shp p f hf c c2 hc
        have hpc2 : p c2 = p c := hp c2 c hshape hch
        have hpc2f : ¬ p c2 = true := by rw [hpc2]; exact hpc
        refine ⟨r, ?_, ?_⟩
        · simp [findFirstDescList, hpc, hr1]
        · simp [findFirstDescList, hpc2f, hr2]
      | none =>
        rw [hc] at h
        cases hcs : updateFirstDescList p f cs with
        | none => rw [hcs] at h; exact absurd h (by simp)
        | some cs3 =>
          rw [hcs] at h
          cases h
          obtain ⟨r, hr1, hr2⟩ := findFirstList_update p f hf hp hpf cs cs3 hcs
          have hnone : findFirstDesc p c = none := by
            have := updateFirst_isSome p f c
            rw [hc] at this
            cases hfc : findFirstDesc p c with
            | none => rfl
            | some x => rw [hfc] at this; simp at this
          refine ⟨r, ?_, ?_⟩
          · simp [findFirstDescList, hpc, hnone, hr1]
          · simp [findFirstDescList, hpc, hnone, hr2]

end

/-! ### Preservation lemmas for the specific predicates of the merge engine -/

theorem appendChild_shp (frag : Elem) : ∀ x : Elem, shp (appendChild frag x) = shp x := by
  intro x
  cases x with
  | mk t a tx ln cs => rfl

theorem appendToArch_shp (frag : Elem) : ∀ x : Elem, shp (appendToArch frag x) = shp x := by
  intro x
  simp only [appendToArch]
  cases h : updateFirstDesc isArchField (appendChild frag) x with
  | none => rfl
  | some x2 =>
    simpa using (updateFirstDesc_shape isArchField (appendChild frag) x x2 h).1

theorem appendToArch_children_shp (frag : Elem) :
    ∀ x : Elem, (appendToArch frag x).children.map shp = x.children.map shp := by
  intro x
  simp only [appendToArch]
  cases h : updateFirstDesc isArchField (appendChild frag) x with
  | none => rfl
  | some x2 =>
    simpa using
      updateFirstDesc_children_shp isArchField (appendChild frag) (appendChild_shp frag) x x2 h

theorem isMatchingRecord_appendToArch (viewId : String) (frag : Elem) :
    ∀ x : Elem, isMatchingRecord viewId x = true →
      isMatchingRecord viewId (appendToArch frag x) = true := by
  intro x hx
  have := isMatchingRecord_congr viewId (appendToArch frag x) x
    (appendToArch_shp frag x) (appendToArch_children_shp frag x)
  rw [this]
  exact hx

theorem isArchField_appendChild (frag : Elem) :
    ∀ x : Elem, isArchField x = true → isArchField (appendChild frag x) = true := by
  intro x hx
  rw [isArchField_congr (appendChild frag x) x (appendChild_shp frag x)]
  exact hx

/-- Whether a candidate file contains a record inheriting from the target
view id. -/
def fileHasMatch (viewId : String) (f : XmlFile) : Bool :=
  match f.2 with
  | none => false
  | some root => (findFirstDesc (isMatchingRecord viewId) root).isSome

theorem processFile_none_of_nomatch (viewId : String) (frag : Option Elem) (root : Elem)
    (h : findFirstDesc (isMatchingRecord viewId) root = none) :
    processFile viewId frag root = none := by
  simp [processFile, h]

/-- Files without a matching record are passed over unchanged by the search. -/
theorem find_and_update_skip (viewId : String) (frag : Option Elem) :
    ∀ pre rest : List XmlFile, (∀ f ∈ pre, fileHasMatch viewId f = false) →
      find_and_update_view_file viewId frag (pre ++ rest) =
        (pre ++ (find_and_update_view_file viewId frag rest).1,
         (find_and_update_view_file viewId frag rest).2) := by
  intro pre
  induction pre with
  | nil => intro rest h; simp
  | cons f pre ih =>
    intro rest h
    obtain ⟨nm, doc⟩ := f
    have hf : fileHasMatch viewId (nm, doc) = false := h _ (by simp)
    have hrest := ih rest (fun g hg => h g (by simp [hg]))
    cases doc with
    | none =>
      simp only [List.cons_append, find_and_update_view_file]
      rw [List.append_eq, hrest]
    | some root =>
      have hnone : findFirstDesc (isMatchingRecord viewId) root = none := by
        simp only [fileHasMatch] at hf
        cases hx : findFirstDesc (isMatchingRecord viewId) root with
        | none => rfl
        | some r => rw [hx] at hf; simp at hf
      simp only [List.cons_append, find_and_update_view_file,
        processFile_none_of_nomatch viewId frag root hnone]
      rw [List.append_eq, hrest]

/-! ### C1: first match wins, one file mutated, no new file -/

/-- **C1.** For every extend call with a non-empty candidate file set, when
some candidate file contains a view-definition record whose `inherit_id` ref
equals the target view id, the fragment is appended as the last child of the
first such matching record's `arch` field in the first matching file, that
file is persisted, and the search stops: no other candidate file is mutated
and no new file is created (at most one file mutated per call). -/
theorem extend_appends_fragment_to_first_matching_file
    (pre post : List XmlFile) (nm viewId : String)
    (root r a frag : Elem) (newFile : XmlFile)
    (hpre : ∀ f ∈ pre, fileHasMatch viewId f = false)
    (hr : findFirstDesc (isMatchingRecord viewId) root = some r)
    (ha : findFirstDesc isArchField r = some a) :
    ∃ root2,
      find_and_update_view_file viewId (some frag) (pre ++ (nm, some root) :: post)
        = (pre ++ (nm, some root2) :: post, true)
      ∧ findFirstDesc (isMatchingRecord viewId) root2 = some (appendToArch frag r)
      ∧ findFirstDesc isArchField (appendToArch frag r) = some (appendChild frag a)
      ∧ (appendChild frag a).children = a.children ++ [frag]
      ∧ extend_view_files (pre ++ (nm, some root) :: post) viewId (some frag) newFile
          = pre ++ (nm, some root2) :: post := by
  have hsome : (updateFirstDesc (isMatchingRecord viewId) (appendToArch frag) root).isSome
      = true := by
    rw [updateFirst_isSome, hr]
    rfl
  obtain ⟨root2, hroot2⟩ :=
    Option.isSome_iff_exists.mp hsome
  have hproc : processFile viewId (some frag) root = some root2 := by
    simp [processFile, hr, ha, hroot2]
  have hone : find_and_update_view_file viewId (some frag) ((nm, some root) :: post)
      = ((nm, some root2) :: post, true) := by
    simp [find_and_update_view_file, hproc]
  refine ⟨root2, ?_, ?_, ?_, ?_, ?_⟩
  · rw [find_and_update_skip viewId (some frag) pre ((nm, some root) :: post) hpre, hone]
  · obtain ⟨r2, hr2, hfound⟩ :=
      findFirst_update (isMatchingRecord viewId) (appendToArch frag)
        (appendToArch_shp frag)
        (fun x y h1 h2 => isMatchingRecord_congr viewId x y h1 h2)
        (isMatchingRecord_appendToArch viewId frag)
        root root2 hroot2
    rw [hr] at hr2
    cases hr2
    exact hfound
  · have hasome : (updateFirstDesc isArchField (appendChild frag) r).isSome = true := by
      rw [updateFirst_isSome, ha]
      rfl
    obtain ⟨r2, hrr2⟩ := Option.isSome_iff_exists.mp hasome
    obtain ⟨a2, ha2, hafound⟩ :=
      findFirst_update isArchField (appendChild frag)
        (appendChild_shp frag)
        (fun x y h1 _ => isArchField_congr x y h1)
        (isArchField_appendChild frag)
        r r2 hrr2
    rw [ha] at ha2
    cases ha2
    have : appendToArch frag r = r2 := by
      simp [appendToArch, hrr2]
    rw [this]
    exact hafound
  · cases a with
    | mk t at2 tx ln cs => rfl
  · simp only [extend_view_files]
    rw [find_and_update_skip viewId (some frag) pre ((nm, some root) :: post) hpre, hone]
    simp

/-! Concrete instances used by the witnesses and counterexamples. -/

def wViewId : String := "base.view_partner_form"
def litOdoo : String := "odoo"
def litXpath : String := "xpath"
def litExpr : String := "expr"
def litPosition : String := "position"
def litAfter : String := "after"
def wExpr : String := "//x"
def wFileName : String := "partner_views.xml"
def wNewName : String := "view_partner_form_inherited_views.xml"

/-- The inherit_id field of the concrete matching record. -/
def wInh : Elem := .mk litField [(litName, litInheritId), (litRef, wViewId)] "" 3 []

/-- The arch field of the concrete matching record. -/
def wArchF : Elem := .mk litField [(litName, litArch)] "" 4 []

/-- A concrete record inheriting from `base.view_partner_form`. -/
def wRec : Elem := .mk litRecord [(litModel, litIrUiView)] "" 2 [wInh, wArchF]

/-- A concrete candidate document containing `wRec`. -/
def wRoot : Elem := .mk litOdoo [] "" 1 [wRec]

/-- A concrete well-formed xpath fragment. -/
def wFrag : Elem := .mk litXpath [(litExpr, wExpr), (litPosition, litAfter)] "" 1 []

/-- `wRoot` after the merge engine appended `wFrag` to the arch field. -/
def wRootAfter : Elem :=
  .mk litOdoo [] "" 1
    [.mk litRecord [(litModel, litIrUiView)] "" 2
      [wInh, .mk litField [(litName, litArch)] "" 4 [wFrag]]]

theorem extend_appends_fragment_witness :
    extend_view_files [(wFileName, some wRoot)] wViewId (some wFrag) (wNewName, none)
      = [(wFileName, some wRootAfter)] := by
  obtain ⟨root2, h1, h2, h3, h4, h5⟩ :=
    extend_appends_fragment_to_first_matching_file [] [] wFileName wViewId
      wRoot wRec wArchF wFrag (wNewName, none)
      (by intro f hf; simp at hf) rfl rfl
  simp only [List.nil_append] at h1 h5
  rw [h5]
  have h0 : find_and_update_view_file wViewId (some wFrag) [(wFileName, some wRoot)]
      = ([(wFileName, some wRootAfter)], true) := rfl
  have hcmp := h1.symm.trans h0
  simp only [Prod.mk.injEq, List.cons.injEq, Option.some.injEq, and_true, true_and] at hcmp
  rw [hcmp]

/-! ### C2: behaviour on a malformed insertion fragment -/

theorem processFile_malformed (viewId : String) (root : Elem) :
    processFile viewId none root = none := by
  simp only [processFile]
  cases h1 : findFirstDesc (isMatchingRecord viewId) root with
  | none => rfl
  | some r => cases h2 : findFirstDesc isArchField r <;> simp [h2]

/-- **C2 counterexample.** The claim says a malformed fragment fails the whole
call with no new file created.  On a candidate set that even contains a
matching record, the source instead catches the `XMLSyntaxError` raised by
`etree.fromstring`, treats the file like an unparseable candidate, reports no
update, and falls through to creating a new override file. -/
theorem extend_malformed_fragment_counterexample :
    fileHasMatch wViewId (wFileName, some wRoot) = true
    ∧ extend_view_files [(wFileName, some wRoot)] wViewId none (wNewName, none)
        = [(wFileName, some wRoot), (wNewName, none)] := by
  exact ⟨rfl, rfl⟩

/-- **C2 (amended).** For every extend call whose rendered insertion fragment
is not well-formed XML, no candidate file is mutated and the search reports no
match; the call then falls through to the create-new-file path, so a new
override file embedding the malformed fragment is appended to the candidate
set instead of the call failing. -/
theorem extend_malformed_fragment_amended (files : List XmlFile) (viewId : String)
    (newFile : XmlFile) :
    find_and_update_view_file viewId none files = (files, false)
    ∧ extend_view_files files viewId none newFile = files ++ [newFile] := by
  have h : find_and_update_view_file viewId none files = (files, false) := by
    induction files with
    | nil => rfl
    | cons f rest ih =>
      obtain ⟨nm, doc⟩ := f
      cases doc with
      | none => simp [find_and_update_view_file, ih]
      | some root =>
        simp [find_and_update_view_file, processFile_malformed viewId root, ih]
  refine ⟨h, ?_⟩
  simp [extend_view_files, h]

/-! ### The XML append helpers (`otk/commands/add_xml.py`)

`_append_xml_to_file` works on raw file text, not on parsed trees, so this
part of the embedding works on lists of characters.  `str.replace` of Python
replaces every non-overlapping occurrence, scanning left to right. -/

def litCloseOdoo : String := "</odoo>"
def litInitWrapper : String := "<odoo>\n\n</odoo>\n"
def litInitHead : String := "<odoo>\n\n"

/-- The marker `'</odoo>'` the source searches for. -/
def wrapMarker : List Char := litCloseOdoo.data

/-- `wrapMarker in s` at position 0. -/
def startsWithMarker (s : List Char) : Bool :=
  wrapMarker.isPrefixOf s

/-- Python's `marker in content`. -/
def containsMarker : List Char → Bool
  | [] => false
  | c :: rest => startsWithMarker (c :: rest) || containsMarker rest

/-- Python's `content.replace(marker, repl)`: replace every non-overlapping
occurrence of `'</odoo>'`, scanning left to right. -/
def replaceMarker (repl : List Char) : List Char → List Char
  | '<' :: ('/' :: ('o' :: ('d' :: ('o' :: ('o' :: ('>' :: rest)))))) =>
    repl ++ replaceMarker repl rest
  | c :: rest => c :: replaceMarker repl rest
  | [] => []

/-- Number of non-overlapping occurrences of `'</odoo>'`, counted by the same
left-to-right scan as `replaceMarker`. -/
def countMarker : List Char → Nat
  | '<' :: ('/' :: ('o' :: ('d' :: ('o' :: ('o' :: ('>' :: rest)))))) =>
    1 + countMarker rest
  | _ :: rest => countMarker rest
  | [] => 0

/-- `_ensure_xml_data_wrapper`: a missing or empty file is initialised with
the empty wrapper text; the resulting file content. -/
def ensure_xml_data_wrapper (file : Option (List Char)) : List Char :=
  match file with
  | none => litInitWrapper.data
  | some s => if s.isEmpty then litInitWrapper.data else s

/-- `_append_xml_to_file`: ensure the wrapper, then insert the rendered XML
before every occurrence of `'</odoo>'` (via `str.replace`), or append it at
the end when no marker is present.  Returns the persisted file content. -/
def append_xml_to_file (file : Option (List Char)) (xml : List Char) : List Char :=
  let content := ensure_xml_data_wrapper file
  if containsMarker content then
    replaceMarker (xml ++ '\n' :: wrapMarker) content
  else
    content ++ xml

/-! ### Marker-scanning lemmas -/

/-- Whether a list could start an occurrence of the marker if extended by some
continuation: either the marker is already a prefix, or the list is a prefix
of the marker. -/
def canStartMarker (a : List Char) : Bool :=
  wrapMarker.isPrefixOf a || a.isPrefixOf wrapMarker

/-- No suffix of `a` can start an occurrence of the marker, whatever text
follows `a`. -/
def scanClean : List Char → Bool
  | [] => true
  | c :: rest => !(canStartMarker (c :: rest)) && scanClean rest

theorem isPrefixOf_append_or (p a b : List Char) (h : p.isPrefixOf (a ++ b) = true) :
    (p.isPrefixOf a || a.isPrefixOf p) = true := by
  rw [List.isPrefixOf_iff_prefix] at h
  rcases List.prefix_or_prefix_of_prefix h (List.prefix_append a b) with h1 | h1
  · rw [Bool.or_eq_true, List.isPrefixOf_iff_prefix]
    exact Or.inl h1
  · rw [Bool.or_eq_true, List.isPrefixOf_iff_prefix, List.isPrefixOf_iff_prefix]
    exact Or.inr h1

theorem isPrefixOf_of_append_isPrefixOf (a b p : List Char)
    (h : (a ++ b).isPrefixOf p = true) : a.isPrefixOf p = true := by
  rw [List.isPrefixOf_iff_prefix] at h ⊢
  exact (List.prefix_append a b).trans h

theorem startsWithMarker_false_of_not_canStart (c : Char) (rest b : List Char)
    (h : canStartMarker (c :: rest) = false) :
    startsWithMarker ((c :: rest) ++ b) = false := by
  cases hs : startsWithMarker ((c :: rest) ++ b) with
  | false => rfl
  | true =>
    have h2 := isPrefixOf_append_or wrapMarker (c :: rest) b hs
    rw [canStartMarker] at h
    rw [h2] at h
    cases h

theorem scanClean_append (u w : List Char) (hu : scanClean u = true)
    (hw : scanClean w = true) : scanClean (u ++ w) = true := by
  induction u with
  | nil => simpa using hw
  | cons c rest ih =>
    simp only [scanClean, Bool.and_eq_true] at hu
    have hrest := ih hu.2
    simp only [List.cons_append, scanClean, Bool.and_eq_true]
    refine ⟨?_, by simpa using hrest⟩
    cases hcs : canStartMarker (c :: (rest ++ w)) with
    | false => rfl
    | true =>
      exfalso
      simp only [canStartMarker, Bool.or_eq_true] at hcs
      have hfalse : canStartMarker (c :: rest) = true := by
        cases hcs with
        | inl h1 =>
          have h3 := isPrefixOf_append_or wrapMarker (c :: rest) w
            (by simpa using h1)
          simpa [canStartMarker] using h3
        | inr h2 =>
          have h3 := isPrefixOf_of_append_isPrefixOf (c :: rest) w wrapMarker
            (by simpa using h2)
          simp [canStartMarker, h3]
      simp only [Bool.not_eq_true'] at hu
      rw [hu.1] at hfalse
      cases hfalse

/-! Bridging equations between the pattern-matching scan and the
`startsWithMarker` test. -/

theorem countMarker_marker_append (v : List Char) :
    countMarker (wrapMarker ++ v) = 1 + countMarker v := rfl

theorem replaceMarker_marker_append (repl v : List Char) :
    replaceMarker repl (wrapMarker ++ v) = repl ++ replaceMarker repl v := rfl

theorem startsWithMarker_marker_append (v : List Char) :
    startsWithMarker (wrapMarker ++ v) = true := by
  rw [startsWithMarker, List.isPrefixOf_iff_prefix]
  exact List.prefix_append wrapMarker v

theorem startsWithMarker_decomp (s : List Char) (h : startsWithMarker s = true) :
    ∃ rest, s = wrapMarker ++ rest := by
  rw [startsWithMarker, List.isPrefixOf_iff_prefix] at h
  obtain ⟨rest, hrest⟩ := h
  exact ⟨rest, hrest.symm⟩

theorem countMarker_cons_nomarker (c : Char) (l : List Char)
    (h : startsWithMarker (c :: l) = false) :
    countMarker (c :: l) = countMarker l := by
  rw [countMarker.eq_def]
  split
  · next rest heq =>
    exfalso
    have : startsWithMarker (c :: l) = true := by
      rw [heq]
      exact startsWithMarker_marker_append rest
    rw [this] at h
    cases h
  · next c2 rest hne heq =>
    cases heq
    rfl
  · next x heq =>
    exact absurd heq (by simp)

theorem replaceMarker_cons_nomarker (repl : List Char) (c : Char) (l : List Char)
    (h : startsWithMarker (c :: l) = false) :
    replaceMarker repl (c :: l) = c :: replaceMarker repl l := by
  rw [replaceMarker.eq_def]
  split
  · next rest heq =>
    exfalso
    have : startsWithMarker (c :: l) = true := by
      rw [heq]
      exact startsWithMarker_marker_append rest
    rw [this] at h
    cases h
  · next c2 rest hne heq =>
    cases heq
    rfl
  · next x heq =>
    exact absurd heq (by simp)

theorem countMarker_append_of_scanClean (b : List Char) :
    ∀ a : List Char, scanClean a = true → countMarker (a ++ b) = countMarker b := by
  intro a
  induction a with
  | nil => intro _; rfl
  | cons c rest ih =>
    intro h
    simp only [scanClean, Bool.and_eq_true, Bool.not_eq_true'] at h
    have hs := startsWithMarker_false_of_not_canStart c rest b h.1
    rw [List.cons_append, countMarker_cons_nomarker c (rest ++ b) (by simpa using hs)]
    exact ih h.2

theorem replaceMarker_append_of_scanClean (repl b : List Char) :
    ∀ a : List Char, scanClean a = true →
      replaceMarker repl (a ++ b) = a ++ replaceMarker repl b := by
  intro a
  induction a with
  | nil => intro _; rfl
  | cons c rest ih =>
    intro h
    simp only [scanClean, Bool.and_eq_true, Bool.not_eq_true'] at h
    have hs := startsWithMarker_false_of_not_canStart c rest b h.1
    rw [List.cons_append, replaceMarker_cons_nomarker repl c (rest ++ b) (by simpa using hs)]
    rw [ih h.2]
    rfl

theorem containsMarker_eq_false_of_countMarker_zero :
    ∀ v : List Char, countMarker v = 0 → containsMarker v = false := by
  intro v
  induction v with
  | nil => intro _; rfl
  | cons c rest ih =>
    intro h
    cases hs : startsWithMarker (c :: rest) with
    | true =>
      exfalso
      obtain ⟨tail, htail⟩ := startsWithMarker_decomp (c :: rest) hs
      rw [htail, countMarker_marker_append] at h
      omega
    | false =>
      rw [countMarker_cons_nomarker c rest hs] at h
      rw [containsMarker, hs]
      simpa using ih h

theorem replaceMarker_noop (repl : List Char) :
    ∀ v : List Char, containsMarker v = false → replaceMarker repl v = v := by
  intro v
  induction v with
  | nil => intro _; rfl
  | cons c rest ih =>
    intro h
    simp only [containsMarker, Bool.or_eq_false_iff] at h
    rw [replaceMarker_cons_nomarker repl c rest h.1]
    rw [ih h.2]

theorem containsMarker_append_marker (v : List Char) :
    ∀ u : List Char, containsMarker (u ++ (wrapMarker ++ v)) = true := by
  intro u
  induction u with
  | nil =>
    rw [List.nil_append]
    have h1 : containsMarker (wrapMarker ++ v)
        = (startsWithMarker (wrapMarker ++ v) || containsMarker (wrapMarker.drop 1 ++ v)) := rfl
    rw [h1, startsWithMarker_marker_append]
    rfl
  | cons c rest ih =>
    rw [List.cons_append, containsMarker, ih]
    simp

/-- The marker contains no newline, so a scan position whose window would
cross a final newline can never start an occurrence. -/
theorem scanClean_append_newline :
    ∀ xml : List Char, containsMarker xml = false → scanClean (xml ++ ['\n']) = true := by
  intro xml
  induction xml with
  | nil => intro _; decide
  | cons c rest ih =>
    intro h
    simp only [containsMarker, Bool.or_eq_false_iff] at h
    have htail := ih h.2
    simp only [List.cons_append, scanClean, Bool.and_eq_true]
    refine ⟨?_, by simpa using htail⟩
    cases hcs : canStartMarker (c :: (rest ++ ['\n'])) with
    | false => rfl
    | true =>
      exfalso
      simp only [canStartMarker, Bool.or_eq_true] at hcs
      have hz : (c :: (rest ++ ['\n'])) = (c :: rest) ++ ['\n'] := by simp
      cases hcs with
      | inr h2 =>
        rw [List.isPrefixOf_iff_prefix] at h2
        have hmem : '\n' ∈ wrapMarker := h2.subset (by simp)
        exact absurd hmem (by decide)
      | inl h1 =>
        rw [List.isPrefixOf_iff_prefix, hz] at h1
        have hpre2 : (c :: rest) <+: ((c :: rest) ++ ['\n']) := List.prefix_append _ _
        rcases List.prefix_or_prefix_of_prefix h1 hpre2 with h3 | h3
        · have : startsWithMarker (c :: rest) = true := by
            rw [startsWithMarker, List.isPrefixOf_iff_prefix]
            exact h3
          rw [this] at h
          exact absurd h.1 (by simp)
        · have hlen : (c :: rest).length ≤ wrapMarker.length := h3.length_le
          have hlen2 : wrapMarker.length ≤ ((c :: rest) ++ ['\n']).length := h1.length_le
          simp only [List.length_append, List.length_cons, List.length_nil] at hlen hlen2
          have heqlen : wrapMarker.length = (c :: rest).length + 1 ∨
              wrapMarker.length = (c :: rest).length := by
            simp only [List.length_cons]
            omega
          cases heqlen with
          | inl hl =>
            have heq : wrapMarker = (c :: rest) ++ ['\n'] := by
              refine List.IsPrefix.eq_of_length h1 ?_
              simp only [List.length_append, List.length_cons, List.length_nil] at hl ⊢
              omega
            have hmem : '\n' ∈ wrapMarker := by
              rw [heq]
              simp
            exact absurd hmem (by decide)
          | inr hl =>
            have hcr : c :: rest = wrapMarker := List.IsPrefix.eq_of_length h3 hl.symm
            have hsw : startsWithMarker (c :: rest) = true := by
              rw [startsWithMarker, List.isPrefixOf_iff_prefix, hcr]
            rw [hsw] at h
            exact absurd h.1 (by simp)

/-! ### C3: the single-wrapper invariant of the append path -/

/-- **C3.** Every document persisted by the merge/append path has exactly one
top-level wrapper: a new or empty target file is first initialised with an
empty `<odoo>` wrapper; a file already containing a wrapper (one closing-tag
occurrence, split as `u ++ '</odoo>' ++ v` with a clean prefix and no further
occurrence) has the new content inserted immediately before the wrapper's
closing tag; the persisted result again has exactly one wrapper occurrence,
never zero or two. -/
theorem append_xml_single_wrapper (file : Option (List Char)) (xml u v : List Char)
    (hxml : containsMarker xml = false)
    (hsplit : ensure_xml_data_wrapper file = u ++ (wrapMarker ++ v))
    (hu : scanClean u = true) (hv : countMarker v = 0) :
    (file = none ∨ file = some [] → ensure_xml_data_wrapper file = litInitWrapper.data)
    ∧ countMarker (ensure_xml_data_wrapper file) = 1
    ∧ append_xml_to_file file xml = u ++ (xml ++ ('\n' :: (wrapMarker ++ v)))
    ∧ countMarker (append_xml_to_file file xml) = 1 := by
  have hvfalse := containsMarker_eq_false_of_countMarker_zero v hv
  refine ⟨?_, ?_, ?_, ?_⟩
  · intro hcase
    rcases hcase with h | h <;> rw [h] <;> rfl
  · rw [hsplit, countMarker_append_of_scanClean (wrapMarker ++ v) u hu,
      countMarker_marker_append, hv]
  · rw [append_xml_to_file, hsplit]
    rw [if_pos (containsMarker_append_marker v u)]
    rw [replaceMarker_append_of_scanClean (xml ++ '\n' :: wrapMarker) (wrapMarker ++ v) u hu]
    rw [replaceMarker_marker_append, replaceMarker_noop (xml ++ '\n' :: wrapMarker) v hvfalse]
    simp
  · rw [append_xml_to_file, hsplit]
    rw [if_pos (containsMarker_append_marker v u)]
    rw [replaceMarker_append_of_scanClean (xml ++ '\n' :: wrapMarker) (wrapMarker ++ v) u hu]
    rw [replaceMarker_marker_append, replaceMarker_noop (xml ++ '\n' :: wrapMarker) v hvfalse]
    have hregroup : u ++ ((xml ++ '\n' :: wrapMarker) ++ v)
        = (u ++ (xml ++ ['\n'])) ++ (wrapMarker ++ v) := by
      simp
    rw [hregroup]
    rw [countMarker_append_of_scanClean (wrapMarker ++ v) (u ++ (xml ++ ['\n']))
      (scanClean_append u (xml ++ ['\n']) hu (scanClean_append_newline xml hxml))]
    rw [countMarker_marker_append, hv]

def wXml : String := "<x/>"

theorem append_xml_single_wrapper_witness :
    countMarker (append_xml_to_file none wXml.data) = 1
    ∧ append_xml_to_file none wXml.data
        = litInitHead.data ++ (wXml.data ++ ('\n' :: (wrapMarker ++ ['\n']))) := by
  obtain ⟨h1, h2, h3, h4⟩ :=
    append_xml_single_wrapper none wXml.data litInitHead.data ['\n']
      (by decide) (by decide) (by decide) (by decide)
  exact ⟨h4, h3⟩

/-! ### The view linter (`otk/commands/lint.py`) -/

def litList : String := "list"
def litTree : String := "tree"
def litForm : String := "form"
def litSearch : String := "search"
def litKanban : String := "kanban"
def litGraph : String := "graph"
def litPivot : String := "pivot"
def litCalendar : String := "calendar"
def litActivity : String := "activity"
def litString : String := "string"
def litAttrs : String := "attrs"
def litStates : String := "states"
def litCommon : String := "common"
def litAmp : String := "&"
def litAmpEsc : String := "&amp;"

/-- The view-type priority order hard-coded in `get_view_type_from_xml`. -/
def viewTypeOrder : List String :=
  [litList, litTree, litForm, litSearch, litKanban, litGraph, litPivot, litCalendar, litActivity]

/-- The nine view tags of the `//list | //tree | ...` union used by the
string-attribute rule. -/
def viewTagNames : List String :=
  [litList, litTree, litForm, litSearch, litKanban, litGraph, litPivot, litCalendar, litActivity]

/-- `'list' if view_type == 'tree' else view_type`. -/
def normalizeViewType (t : String) : String :=
  if t == litTree then litList else t

/-- `root.xpath("//record[@model='ir.ui.view']")`: absolute path evaluated
from the document root, so the root element itself is included. -/
def viewRecordsOf (root : Elem) : List Elem :=
  (descOrSelf root).filter isViewRecordElem

/-- `record.xpath(".//field[@name='arch']")[0]` when present. -/
def firstArchOf (r : Elem) : Option Elem :=
  findFirstDesc isArchField r

/-- Whether `e.xpath(f".//{vt}")` is non-empty. -/
def hasDescWithTag (vt : String) (e : Elem) : Bool :=
  (descendants e).any (fun x => x.tag == vt)

/-- The record-scoped half of `get_view_type_from_xml`: for each view record
owning an `arch` field, try the nine view tags in priority order against that
arch subtree; the first record producing a match returns. -/
def recordScanViewType (root : Elem) : Option String :=
  (viewRecordsOf root).findSome? (fun r =>
    match firstArchOf r with
    | none => none
    | some arch =>
      viewTypeOrder.findSome? (fun vt =>
        if hasDescWithTag vt arch then some (normalizeViewType vt) else none))

/-- The whole-document half of `get_view_type_from_xml`: the same ordered
search over the strict descendants of the root. -/
def docScanViewType (root : Elem) : Option String :=
  viewTypeOrder.findSome? (fun vt =>
    if hasDescWithTag vt root then some (normalizeViewType vt) else none)

/-- `get_view_type_from_xml`. -/
def get_view_type_from_xml (root : Elem) : Option String :=
  match recordScanViewType root with
  | some vt => some vt
  | none => docScanViewType root

/-- The record-scan half of `extract_view_elements_for_rng`: for every view
record owning an `arch` field, all elements of the classified tag under that
arch. -/
def recordScanElems (root : Elem) (vt : String) : List Elem :=
  (viewRecordsOf root).flatMap (fun r =>
    match firstArchOf r with
    | none => []
    | some arch => (descendants arch).filter (fun e => e.tag == vt))

/-- The whole-document half of `extract_view_elements_for_rng`:
`root.xpath(f".//{vt}")`. -/
def wholeScanElems (root : Elem) (vt : String) : List Elem :=
  (descendants root).filter (fun e => e.tag == vt)

/-- `extract_view_elements_for_rng`: record-scoped extraction followed by the
whole-document extraction. -/
def extract_view_elements_for_rng (root : Elem) (vt : String) : List Elem :=
  recordScanElems root vt ++ wholeScanElems root vt

/-! ### The `attrs` replacement-suggestion heuristic -/

/-- Substring test (Python's `needle in hay` for strings). -/
def hasSubstr (needle : List Char) : List Char → Bool
  | [] => needle.isEmpty
  | c :: rest => needle.isPrefixOf (c :: rest) || hasSubstr needle rest

/-- `needle in hay` on strings. -/
def strIn (needle hay : String) : Bool :=
  hasSubstr needle.data hay.data

def litInvisible : String := "invisible"
def litReadonly : String := "readonly"
def litRequired : String := "required"
def litState : String := "state"
def litEq : String := "="
def litNeq : String := "!="
def litBrackParen : String := "[("
def litPipe : String := "|"

/-- A single-quote character (written via its code point). -/
def apos : String := String.singleton (Char.ofNat 39)

/-- `'k'` with single quotes. -/
def quoted (k : String) : String := apos ++ k ++ apos

def sfxOne : String := ": 1"
def sfxTrue : String := ": True"
def sfxZero : String := ": 0"
def sfxFalse : String := ": False"

/-- `"'k': 1"`. -/
def patOne (k : String) : String := quoted k ++ sfxOne
/-- `"'k': True"`. -/
def patTrue (k : String) : String := quoted k ++ sfxTrue
/-- `"'k': 0"`. -/
def patZero (k : String) : String := quoted k ++ sfxZero
/-- `"'k': False"`. -/
def patFalse (k : String) : String := quoted k ++ sfxFalse

/-- `k="True"`. -/
def sugTrue (k : String) : String := k ++ "=\"True\""
/-- `k="False"`. -/
def sugFalse (k : String) : String := k ++ "=\"False\""
/-- `k="state == 'value'"`. -/
def sugStateEq (k : String) : String :=
  k ++ "=\"state == " ++ apos ++ "value" ++ apos ++ "\""
/-- `readonly="state != 'draft'"`. -/
def sugStateNeq (k : String) : String :=
  k ++ "=\"state != " ++ apos ++ "draft" ++ apos ++ "\""
/-- `k="condition"`. -/
def sugCond (k : String) : String := k ++ "=\"condition\""

/-- `(Note: Use 'or' for '|' operators)`. -/
def noteOr : String :=
  "(Note: Use " ++ quoted "or" ++ " for " ++ quoted litPipe ++ " operators)"
/-- `(Note: Use 'and' for '&' operators)`. -/
def noteAnd : String :=
  "(Note: Use " ++ quoted "and" ++ " for " ++ quoted litAmp ++ " operators)"

/-- The low-confidence fallback suggestion. -/
def fallbackSuggestion : String :=
  "Use direct attributes (invisible, readonly, required, column_invisible)"

/-- The `invisible` branch of `get_attrs_replacement_suggestion`. -/
def invisibleSuggs (v : String) : List String :=
  if strIn litInvisible v then
    if strIn (patOne litInvisible) v || strIn (patTrue litInvisible) v then
      [sugTrue litInvisible]
    else if strIn (patZero litInvisible) v || strIn (patFalse litInvisible) v then
      [sugFalse litInvisible]
    else if strIn litBrackParen v then
      if strIn litState v && strIn litEq v then [sugStateEq litInvisible]
      else [sugCond litInvisible]
    else []
  else []

/-- The `readonly` branch of `get_attrs_replacement_suggestion`. -/
def readonlySuggs (v : String) : List String :=
  if strIn litReadonly v then
    if strIn (patOne litReadonly) v || strIn (patTrue litReadonly) v then
      [sugTrue litReadonly]
    else if strIn (patZero litReadonly) v || strIn (patFalse litReadonly) v then
      [sugFalse litReadonly]
    else if strIn litBrackParen v then
      if strIn litState v && strIn litNeq v then [sugStateNeq litReadonly]
      else if strIn litState v && strIn litEq v then [sugStateEq litReadonly]
      else [sugCond litReadonly]
    else []
  else []

/-- The `required` branch of `get_attrs_replacement_suggestion`. -/
def requiredSuggs (v : String) : List String :=
  if strIn litRequired v then
    if strIn (patOne litRequired) v || strIn (patTrue litRequired) v then
      [sugTrue litRequired]
    else if strIn (patZero litRequired) v || strIn (patFalse litRequired) v then
      [sugFalse litRequired]
    else if strIn litBrackParen v then
      [sugCond litRequired]
    else []
  else []

/-- Python's `" ".join`. -/
def joinSpace : List String → String
  | [] => ""
  | [x] => x
  | x :: (y :: xs) => x ++ " " ++ joinSpace (y :: xs)

/-- `get_attrs_replacement_suggestion`: collect the heuristic per-attribute
suggestions, conditionally add the compound-domain notes (only when some
suggestion already exists), and fall back to the generic advice when the list
is empty. -/
def get_attrs_replacement_suggestion (v : String) : String :=
  let s1 := invisibleSuggs v ++ readonlySuggs v ++ requiredSuggs v
  let s2 := if strIn litPipe v && !(s1.isEmpty) then s1 ++ [noteOr] else s1
  let s3 := if strIn litAmp v && !(s2.isEmpty) then s2 ++ [noteAnd] else s2
  if s3.isEmpty then fallbackSuggestion else joinSpace s3

/-! ### Findings and the convention rule battery -/

/-- A lint finding, structured by the message template the source emits (each
constructor carries exactly the data interpolated into the f-string). -/
inductive Finding : Type where
  | deprecatedTree (line : Nat)
  | deprecatedAttrs (line : Nat) (tag : String) (suggestion : String)
  | deprecatedStates (line : Nat) (tag : String) (value : String)
  | missingId (line : Nat)
  | missingField (line : Nat) (recId : Option String) (fieldName : String)
  | missingString (line : Nat) (tag : String)
  | fieldMissingName (line : Nat)
  | unescapedAmp (line : Nat) (tag : String)
  | rngSkip (viewType : String)
  | xmlSyntaxError

/-- Whether an attribute key is present (`xpath` `[@k]` presence test). -/
def Elem.hasAttrKey (e : Elem) (k : String) : Bool :=
  (e.getAttr k).isSome

/-- Rule 1 of `validate_odoo_view_conventions`: deprecated `<tree>` elements
when the classified type is `list` (`root.xpath("//tree")`, absolute). -/
def treeFindings (root : Elem) (vt : String) : List Finding :=
  if vt == litList then
    ((descOrSelf root).filter (fun e => e.tag == litTree)).map
      (fun e => .deprecatedTree e.line)
  else []

/-- Rule 2: deprecated `attrs`/`states` attributes
(`root.xpath("//*[@attrs or @states]")`, then truthiness of each value). -/
def attrsStatesFindings (root : Elem) : List Finding :=
  ((descOrSelf root).filter (fun e => e.hasAttrKey litAttrs || e.hasAttrKey litStates)).flatMap
    (fun e =>
      (match e.getAttr litAttrs with
       | some av =>
         if av.isEmpty then []
         else [.deprecatedAttrs e.line e.tag (get_attrs_replacement_suggestion av)]
       | none => [])
      ++
      (match e.getAttr litStates with
       | some sv =>
         if sv.isEmpty then [] else [.deprecatedStates e.line e.tag sv]
       | none => []))

def requiredFieldNames : List String := [litName, litModel, litArch]

/-- `record.xpath(f".//field[@name='{fn}']")` non-emptiness. -/
def hasFieldDesc (r : Elem) (fn : String) : Bool :=
  (descendants r).any (fun e => e.tag == litField && e.getAttr litName == some fn)

/-- Rule 3: structural completeness of view records: a missing-id finding when
the `id` attribute is falsy, then one finding per missing required field. -/
def recordFindings (root : Elem) : List Finding :=
  (viewRecordsOf root).flatMap (fun r =>
    (if falsyStr (r.getAttr litId) then [.missingId r.line] else [])
    ++ ((requiredFieldNames.filter (fun fn => !(hasFieldDesc r fn))).map
         (fun fn => .missingField r.line (r.getAttr litId) fn)))

/-- Rule 4: top-level view elements should carry a `string` attribute;
`search` is exempt. -/
def stringFindings (root : Elem) : List Finding :=
  ((descOrSelf root).filter (fun e => viewTagNames.contains e.tag)).flatMap
    (fun e =>
      if !(e.truthyAttr litString) && e.tag != litSearch then
        [.missingString e.line e.tag]
      else [])

/-- Rule 5: every `field` element must carry a truthy `name` attribute. -/
def fieldNameFindings (root : Elem) : List Finding :=
  ((descOrSelf root).filter (fun e => e.tag == litField)).flatMap
    (fun e => if falsyStr (e.getAttr litName) then [.fieldMissingName e.line] else [])

/-- `validate_odoo_view_conventions`, rules in source order. -/
def validate_odoo_view_conventions (root : Elem) (vt : String) : List Finding :=
  treeFindings root vt ++ attrsStatesFindings root ++ recordFindings root
    ++ stringFindings root ++ fieldNameFindings root

/-- The unescaped-ampersand check of `lint_xml_file` over `root.iter()`
(which yields the root itself and then its descendants). -/
def ampFindings (root : Elem) : List Finding :=
  (descOrSelf root).flatMap (fun e =>
    if !(e.text.isEmpty) && strIn litAmp e.text && !(strIn litAmpEsc e.text) then
      [.unescapedAmp e.line e.tag]
    else [])

/-! ### Schema cache and fetcher -/

/-- The key set of `RNG_SCHEMA_URLS`. -/
def rngSchemaKeys : List String :=
  [litCommon, litList, litSearch, litGraph, litPivot, litCalendar, litActivity]

/-- The process-wide `_schema_cache` dict. -/
abbrev SchemaCache : Type := List (String × String)

/-- `download_rng_schema`, with the HTTP transport abstracted as an oracle
(`some body` = a 200 response, `none` = any transport or status failure, which
the source catches and turns into a `None` return).  Result: the new cache,
the returned value, and whether an outbound retrieval (`requests.get`) was
performed. -/
def download_rng_schema (cache : SchemaCache) (oracle : String → Option String)
    (key : String) : SchemaCache × Option String × Bool :=
  match lookupAttr key cache with
  | some text => (cache, some text, false)
  | none =>
    if rngSchemaKeys.contains key then
      match oracle key with
      | some text => ((key, text) :: cache, some text, true)
      | none => (cache, none, true)
    else
      (cache, none, false)

/-- `validate_view_with_rng`.  The RelaxNG engine itself (schema patching,
compilation and per-element validation) is abstracted as the parameter
`rngRun`, applied to the two schema texts and each extracted element; it is
unreachable whenever a schema fetch fails. -/
def validate_view_with_rng (cache : SchemaCache) (oracle : String → Option String)
    (rngRun : String → String → Elem → List Finding)
    (root : Elem) (vt : String) : List Finding × SchemaCache :=
  let r1 := download_rng_schema cache oracle litCommon
  let r2 := download_rng_schema r1.1 oracle vt
  if falsyStr r1.2.1 || falsyStr r2.2.1 then
    ([.rngSkip vt], r2.1)
  else
    match r1.2.1, r2.2.1 with
    | some ctext, some vtext =>
      ((extract_view_elements_for_rng root vt).flatMap (rngRun ctext vtext), r2.1)
    | _, _ => ([.rngSkip vt], r2.1)

/-- `lint_xml_file` (with `validate_views` and `skip_rng` as in the source):
parse failure yields the single syntax-error finding; otherwise the ampersand
check, then classification, conventions and - for supported types - schema
validation. -/
def lint_xml_file (parsed : Option Elem) (cache : SchemaCache)
    (oracle : String → Option String) (rngRun : String → String → Elem → List Finding)
    (validateViews skipRng : Bool) : List Finding × SchemaCache :=
  match parsed with
  | none => ([.xmlSyntaxError], cache)
  | some root =>
    let base := ampFindings root
    if validateViews then
      match get_view_type_from_xml root with
      | none => (base, cache)
      | some vt =>
        let conv := validate_odoo_view_conventions root vt
        if !skipRng && rngSchemaKeys.contains vt then
          let r := validate_view_with_rng cache oracle rngRun root vt
          (base ++ conv ++ r.1, r.2)
        else
          (base ++ conv, cache)
    else
      (base, cache)

/-! ### C7: compound-domain notes in the attrs suggestion -/

theorem hasSubstr_nil (n : List Char) (h : n = []) : ∀ l, hasSubstr n l = true := by
  intro l
  cases l with
  | nil => simp [hasSubstr, h]
  | cons c rest => simp [hasSubstr, h, List.isPrefixOf]

theorem hasSubstr_refl (n : List Char) : hasSubstr n n = true := by
  cases n with
  | nil => rfl
  | cons c rest =>
    simp only [hasSubstr, Bool.or_eq_true]
    left
    rw [List.isPrefixOf_iff_prefix]

theorem isPrefixOf_append_of_isPrefixOf (n a b : List Char) (h : n.isPrefixOf a = true) :
    n.isPrefixOf (a ++ b) = true := by
  rw [List.isPrefixOf_iff_prefix] at h ⊢
  exact h.trans (List.prefix_append a b)

theorem hasSubstr_append_left (n : List Char) :
    ∀ a b : List Char, hasSubstr n a = true → hasSubstr n (a ++ b) = true := by
  intro a
  induction a with
  | nil =>
    intro b h
    simp only [hasSubstr] at h
    exact hasSubstr_nil n (by simpa using h) b
  | cons c rest ih =>
    intro b h
    simp only [hasSubstr, Bool.or_eq_true] at h
    simp only [List.cons_append, hasSubstr, Bool.or_eq_true]
    cases h with
    | inl h1 =>
      left
      have := isPrefixOf_append_of_isPrefixOf n (c :: rest) b h1
      simpa using this
    | inr h2 =>
      right
      exact ih b h2

theorem hasSubstr_append_right (n : List Char) :
    ∀ a b : List Char, hasSubstr n b = true → hasSubstr n (a ++ b) = true := by
  intro a
  induction a with
  | nil => intro b h; simpa using h
  | cons c rest ih =>
    intro b h
    simp only [List.cons_append, hasSubstr, Bool.or_eq_true]
    right
    exact ih b h

theorem strIn_joinSpace_of_mem (x : String) :
    ∀ l : List String, x ∈ l → strIn x (joinSpace l) = true := by
  intro l
  induction l with
  | nil => intro h; simp at h
  | cons y ys ih =>
    intro h
    cases ys with
    | nil =>
      have hx : x = y := by simpa using h
      subst hx
      simpa [joinSpace, strIn] using hasSubstr_refl x.data
    | cons z zs =>
      rcases List.mem_cons.mp h with h1 | h1
      · subst h1
        show strIn x ((x ++ " ") ++ joinSpace (z :: zs)) = true
        rw [strIn, String.data_append]
        apply hasSubstr_append_left
        rw [String.data_append]
        exact hasSubstr_append_left x.data x.data " ".data (hasSubstr_refl x.data)
      · show strIn x ((y ++ " ") ++ joinSpace (z :: zs)) = true
        rw [strIn, String.data_append]
        exact hasSubstr_append_right x.data (y ++ " ").data (joinSpace (z :: zs)).data
          (ih h1)

theorem get_attrs_suggestion_join (v : String)
    (hne : (invisibleSuggs v ++ readonlySuggs v ++ requiredSuggs v) ≠ []) :
    ∃ s3 : List String, get_attrs_replacement_suggestion v = joinSpace s3
      ∧ (strIn litPipe v = true → noteOr ∈ s3)
      ∧ (strIn litAmp v = true → noteAnd ∈ s3) := by
  obtain ⟨s1, hgen⟩ : ∃ s1, invisibleSuggs v ++ readonlySuggs v ++ requiredSuggs v = s1 :=
    ⟨_, rfl⟩
  rw [hgen] at hne
  have h1 : s1.isEmpty = false := by
    cases s1 with
    | nil => exact absurd rfl hne
    | cons a l => rfl
  have h2 : ∀ x : String, (s1 ++ [x]).isEmpty = false := by
    intro x
    cases s1 with
    | nil => rfl
    | cons a l => rfl
  have h3 : ∀ x y : String, ((s1 ++ [x]) ++ [y]).isEmpty = false := by
    intro x y
    cases s1 with
    | nil => rfl
    | cons a l => rfl
  rw [get_attrs_replacement_suggestion, hgen]
  cases hp : strIn litPipe v with
  | false =>
    cases ha : strIn litAmp v with
    | false =>
      refine ⟨s1, by simp [h1, h2, h3], ?_, ?_⟩
      · intro hc; cases hc
      · intro hc; cases hc
    | true =>
      refine ⟨s1 ++ [noteAnd], by simp [h1, h2, h3], ?_, ?_⟩
      · intro hc; cases hc
      · intro _; simp
  | true =>
    cases ha : strIn litAmp v with
    | false =>
      refine ⟨s1 ++ [noteOr], by simp [h1, h2, h3], ?_, ?_⟩
      · intro _; simp
      · intro hc; cases hc
    | true =>
      refine ⟨(s1 ++ [noteOr]) ++ [noteAnd], by simp [h1, h2, h3], ?_, ?_⟩
      · intro _; simp
      · intro _; simp

/-- **C7 counterexample.** The value `"|"` contains the pipe character, yet
the produced suggestion is the generic fallback, which does not include the
or-note: the notes are only appended when some direct-attribute suggestion was
already generated. -/
theorem attrs_compound_note_counterexample :
    strIn litPipe litPipe = true
    ∧ get_attrs_replacement_suggestion litPipe = fallbackSuggestion
    ∧ strIn noteOr (get_attrs_replacement_suggestion litPipe) = false := by
  refine ⟨by decide, by decide, by decide⟩

/-- **C7 (amended).** For every attrs value for which the heuristic generates
at least one direct-attribute suggestion, a `|` in the value adds the note to
translate `|` to `or`, and a `&` adds the note to translate `&` to `and` (both
notes appearing as substrings of the produced suggestion); when no suggestion
is generated the generic fallback is returned without any note. -/
theorem attrs_compound_note_amended (v : String)
    (hne : (invisibleSuggs v ++ readonlySuggs v ++ requiredSuggs v) ≠ []) :
    (strIn litPipe v = true → strIn noteOr (get_attrs_replacement_suggestion v) = true)
    ∧ (strIn litAmp v = true → strIn noteAnd (get_attrs_replacement_suggestion v) = true) := by
  obtain ⟨s3, heq, hor, hand⟩ := get_attrs_suggestion_join v hne
  constructor
  · intro hp
    rw [heq]
    exact strIn_joinSpace_of_mem noteOr s3 (hor hp)
  · intro ha
    rw [heq]
    exact strIn_joinSpace_of_mem noteAnd s3 (hand ha)

def wAttrsVal : String := patOne litInvisible ++ litPipe ++ litAmp

theorem attrs_compound_note_witness :
    strIn noteOr (get_attrs_replacement_suggestion wAttrsVal) = true
    ∧ strIn noteAnd (get_attrs_replacement_suggestion wAttrsVal) = true := by
  have h := attrs_compound_note_amended wAttrsVal (by decide)
  exact ⟨h.1 (by decide), h.2 (by decide)⟩

/-! ### C10: the cache memoizes only successes -/

def wSchemaText : String := "<grammar/>"

/-- An HTTP transport that always succeeds. -/
def constOracle : String → Option String := fun _ => some wSchemaText

/-- An HTTP transport that always fails. -/
def noneOracle : String → Option String := fun _ => none

/-- **C10 counterexample.** For the unknown key `form` the cache is indeed
left unchanged, but a later fetch of the same key performs no outbound
retrieval at all (the source rejects unknown keys before `requests.get`),
even when the transport would succeed - contradicting the claim that a later
fetch of the same key performs a new outbound retrieval. -/
theorem schema_cache_unknown_key_counterexample :
    rngSchemaKeys.contains litForm = false
    ∧ download_rng_schema [] constOracle litForm = ([], none, false)
    ∧ download_rng_schema (download_rng_schema [] constOracle litForm).1 constOracle litForm
        = ([], none, false) := by
  refine ⟨by decide, rfl, rfl⟩

/-- **C10 (amended).** The schema cache memoizes only successful fetches: a
failed download of a known key leaves the cache unchanged (so a later fetch of
that key performs a new outbound retrieval); an unknown key is rejected before
any retrieval - no outbound request is ever issued for it - and also leaves
the cache unchanged; after one successful fetch, every subsequent fetch of
that key returns the stored text without any retrieval. -/
theorem schema_cache_memoizes_only_success (cache : SchemaCache)
    (oracle : String → Option String) (key : String) :
    (lookupAttr key cache = none → rngSchemaKeys.contains key = true → oracle key = none →
      download_rng_schema cache oracle key = (cache, none, true))
    ∧ (lookupAttr key cache = none → rngSchemaKeys.contains key = false →
      download_rng_schema cache oracle key = (cache, none, false))
    ∧ (∀ text, lookupAttr key cache = none → rngSchemaKeys.contains key = true →
        oracle key = some text →
        download_rng_schema cache oracle key = ((key, text) :: cache, some text, true)
        ∧ ∀ oracle2, download_rng_schema ((key, text) :: cache) oracle2 key
            = ((key, text) :: cache, some text, false)) := by
  refine ⟨?_, ?_, ?_⟩
  · intro hmiss hknown hfail
    have hmem : key ∈ rngSchemaKeys := by simpa using hknown
    simp [download_rng_schema, hmiss, hmem, hfail]
  · intro hmiss hunknown
    have hmem : ¬ key ∈ rngSchemaKeys := by simpa using hunknown
    simp [download_rng_schema, hmiss, hmem]
  · intro text hmiss hknown hok
    have hmem : key ∈ rngSchemaKeys := by simpa using hknown
    refine ⟨by simp [download_rng_schema, hmiss, hmem, hok], ?_⟩
    intro oracle2
    have hhit : lookupAttr key ((key, text) :: cache) = some text := by
      simp [lookupAttr]
    simp [download_rng_schema, hhit]

theorem schema_cache_memoizes_witness :
    download_rng_schema [] noneOracle litList = ([], none, true)
    ∧ download_rng_schema [] constOracle litForm = ([], none, false)
    ∧ download_rng_schema [] constOracle litList
        = ([(litList, wSchemaText)], some wSchemaText, true)
    ∧ download_rng_schema [(litList, wSchemaText)] noneOracle litList
        = ([(litList, wSchemaText)], some wSchemaText, false) := by
  obtain ⟨h1, h2, h3⟩ := schema_cache_memoizes_only_success [] noneOracle litList
  obtain ⟨g1, g2, g3⟩ := schema_cache_memoizes_only_success [] constOracle litForm
  obtain ⟨k1, k2, k3⟩ := schema_cache_memoizes_only_success [] constOracle litList
  refine ⟨h1 rfl (by decide) rfl, g2 rfl (by decide),
    (k3 wSchemaText rfl (by decide) rfl).1, ?_⟩
  exact (k3 wSchemaText rfl (by decide) rfl).2 noneOracle

/-! ### C5: schema-fetch failure degrades gracefully -/

/-- A RelaxNG engine stub used only to instantiate the abstract validator in
witnesses (the engine is unreachable on the failure path). -/
def nilRngRun : String → String → Elem → List Finding := fun _ _ _ => []

/-- **C5.** For every schema category key, a fetch hitting a transport or
status failure returns a failure value (cache unchanged, no exception is
modelled to escape), schema validation for that category is skipped with
exactly one finding describing the skip, and the convention findings for the
same file are still produced: the lint run completes with the ampersand
findings, the convention findings and the single skip finding. -/
theorem schema_fetch_failure_degrades (cache : SchemaCache)
    (oracle : String → Option String) (rngRun : String → String → Elem → List Finding)
    (root : Elem) (vt : String)
    (hvt : get_view_type_from_xml root = some vt)
    (hkey : rngSchemaKeys.contains vt = true)
    (hfail : falsyStr (download_rng_schema cache oracle litCommon).2.1 = true
      ∨ falsyStr (download_rng_schema (download_rng_schema cache oracle litCommon).1
          oracle vt).2.1 = true) :
    (∀ (c : SchemaCache) (k : String), lookupAttr k c = none → oracle k = none →
      (download_rng_schema c oracle k).2.1 = none ∧ (download_rng_schema c oracle k).1 = c)
    ∧ (validate_view_with_rng cache oracle rngRun root vt).1 = [Finding.rngSkip vt]
    ∧ (lint_xml_file (some root) cache oracle rngRun true false).1
        = ampFindings root ++ validate_odoo_view_conventions root vt
          ++ [Finding.rngSkip vt] := by
  have hskip : (validate_view_with_rng cache oracle rngRun root vt).1
      = [Finding.rngSkip vt] := by
    rw [validate_view_with_rng]
    have hcond : (falsyStr (download_rng_schema cache oracle litCommon).2.1
        || falsyStr (download_rng_schema (download_rng_schema cache oracle litCommon).1
            oracle vt).2.1) = true := by
      cases hfail with
      | inl h => rw [h]; rfl
      | inr h => rw [h]; simp
    rw [if_pos hcond]
  refine ⟨?_, hskip, ?_⟩
  · intro c k hmiss hfail2
    by_cases hmem : k ∈ rngSchemaKeys
    · simp [download_rng_schema, hmiss, hmem, hfail2]
    · simp [download_rng_schema, hmiss, hmem]
  · have hmem : vt ∈ rngSchemaKeys := by simpa using hkey
    simp [lint_xml_file, hvt, hskip, hmem]

/-- An arch field whose markup is a bare `<list/>`. -/
def wArchWithList : Elem := .mk litField [(litName, litArch)] "" 4 [.mk litList [] "" 5 []]

/-- A concrete view record holding `wArchWithList`. -/
def wLintRec : Elem := .mk litRecord [(litModel, litIrUiView)] "" 2 [wArchWithList]

/-- A concrete document classified as a `list` view. -/
def wLintRoot : Elem := .mk litOdoo [] "" 1 [wLintRec]

theorem schema_fetch_failure_witness :
    (validate_view_with_rng [] noneOracle nilRngRun wLintRoot litList).1
      = [Finding.rngSkip litList]
    ∧ (lint_xml_file (some wLintRoot) [] noneOracle nilRngRun true false).1
        = ampFindings wLintRoot ++ validate_odoo_view_conventions wLintRoot litList
          ++ [Finding.rngSkip litList] := by
  obtain ⟨h1, h2, h3⟩ := schema_fetch_failure_degrades [] noneOracle nilRngRun
    wLintRoot litList rfl (by decide) (Or.inl rfl)
  exact ⟨h2, h3⟩

/-! ### C4: missing-id and missing-required-field findings -/

/-- Whether a finding is the missing-id message of rule 3. -/
def isMissingIdFinding : Finding → Bool
  | .missingId _ => true
  | _ => false

/-- Whether a finding is the missing-required-field message of rule 3. -/
def isMissingFieldFinding : Finding → Bool
  | .missingField _ _ _ => true
  | _ => false

theorem filter_eq_nil_of_forall {α : Type} (p : α → Bool) :
    ∀ l : List α, (∀ x ∈ l, p x = false) → l.filter p = [] := by
  intro l
  induction l with
  | nil => intro _; rfl
  | cons a l ih =>
    intro h
    rw [List.filter_cons, h a (by simp)]
    rw [if_neg (by simp)]
    exact ih (fun x hx => h x (by simp [hx]))

theorem filter_flatMap_comm {α β : Type} (p : β → Bool) (f : α → List β) :
    ∀ l : List α, (l.flatMap f).filter p = l.flatMap (fun x => (f x).filter p) := by
  intro l
  induction l with
  | nil => rfl
  | cons a l ih => simp [List.flatMap_cons, List.filter_append, ih]

theorem flatMap_if_singleton {α β : Type} (q : α → Bool) (g : α → β) :
    ∀ l : List α, (l.flatMap (fun x => if q x then [g x] else []))
      = (l.filter q).map g := by
  intro l
  induction l with
  | nil => rfl
  | cons a l ih =>
    cases hq : q a with
    | true => simp [List.flatMap_cons, List.filter_cons, hq, ih]
    | false => simp [List.flatMap_cons, List.filter_cons, hq, ih]

theorem filter_congr_of_mem {α : Type} (p q : α → Bool) :
    ∀ l : List α, (∀ x ∈ l, p x = q x) → l.filter p = l.filter q := by
  intro l
  induction l with
  | nil => intro _; rfl
  | cons a l ih =>
    intro h
    rw [List.filter_cons, List.filter_cons, h a (by simp),
      ih (fun x hx => h x (by simp [hx]))]

/-- Every finding produced outside rule 3 is neither a missing-id nor a
missing-field finding. -/
theorem nonrecord_segments_clean (root : Elem) (vt : String) (x : Finding) :
    (x ∈ treeFindings root vt ∨ x ∈ attrsStatesFindings root
      ∨ x ∈ stringFindings root ∨ x ∈ fieldNameFindings root) →
    isMissingIdFinding x = false ∧ isMissingFieldFinding x = false := by
  intro hx
  rcases hx with h | h | h | h
  · rw [treeFindings] at h
    split at h
    · obtain ⟨e, _, rfl⟩ := List.mem_map.mp h
      exact ⟨rfl, rfl⟩
    · simp at h
  · rw [attrsStatesFindings] at h
    obtain ⟨e, _, hin⟩ := List.mem_flatMap.mp h
    rcases List.mem_append.mp hin with h2 | h2
    · split at h2
      · split at h2
        · simp at h2
        · rw [List.mem_singleton] at h2
          subst h2
          exact ⟨rfl, rfl⟩
      · simp at h2
    · split at h2
      · split at h2
        · simp at h2
        · rw [List.mem_singleton] at h2
          subst h2
          exact ⟨rfl, rfl⟩
      · simp at h2
  · rw [stringFindings] at h
    obtain ⟨e, _, hin⟩ := List.mem_flatMap.mp h
    split at hin
    · rw [List.mem_singleton] at hin
      subst hin
      exact ⟨rfl, rfl⟩
    · simp at hin
  · rw [fieldNameFindings] at h
    obtain ⟨e, _, hin⟩ := List.mem_flatMap.mp h
    split at hin
    · rw [List.mem_singleton] at hin
      subst hin
      exact ⟨rfl, rfl⟩
    · simp at hin

/-- **C4.** For every well-formed document (one whose view records do not
carry an empty-string id, so that lxml truthiness agrees with attribute
absence), lint produces exactly one missing-id finding per view-definition
record lacking an identifier attribute - the missing-id findings are exactly
one per such record, in document order - and one finding per missing required
child field among `name`, `model` and `arch` for each view-definition
record. -/
theorem lint_missing_id_and_field_findings (root : Elem) (vt : String)
    (hid : ∀ r ∈ viewRecordsOf root,
      falsyStr (r.getAttr litId) = (r.getAttr litId).isNone) :
    (validate_odoo_view_conventions root vt).filter isMissingIdFinding
      = ((viewRecordsOf root).filter (fun r => (r.getAttr litId).isNone)).map
          (fun r => Finding.missingId r.line)
    ∧ (validate_odoo_view_conventions root vt).filter isMissingFieldFinding
      = (viewRecordsOf root).flatMap (fun r =>
          (requiredFieldNames.filter (fun fn => !(hasFieldDesc r fn))).map
            (fun fn => Finding.missingField r.line (r.getAttr litId) fn)) := by
  have htree : ∀ p : Finding → Bool,
      (∀ x, (isMissingIdFinding x = false ∧ isMissingFieldFinding x = false) → p x = false) →
      (treeFindings root vt).filter p = [] ∧ (attrsStatesFindings root).filter p = []
        ∧ (stringFindings root).filter p = [] ∧ (fieldNameFindings root).filter p = [] := by
    intro p hp
    refine ⟨?_, ?_, ?_, ?_⟩
    all_goals
      exact filter_eq_nil_of_forall p _
        (fun x hx => hp x (nonrecord_segments_clean root vt x (by tauto)))
  obtain ⟨ht1, ha1, hs1, hf1⟩ := htree isMissingIdFinding (fun x hx => hx.1)
  obtain ⟨ht2, ha2, hs2, hf2⟩ := htree isMissingFieldFinding (fun x hx => hx.2)
  constructor
  · rw [validate_odoo_view_conventions]
    simp only [List.filter_append, ht1, ha1, hs1, hf1, List.nil_append, List.append_nil]
    rw [recordFindings, filter_flatMap_comm]
    have hinner : ∀ r ∈ viewRecordsOf root,
        ((if falsyStr (r.getAttr litId) then [Finding.missingId r.line] else [])
          ++ ((requiredFieldNames.filter (fun fn => !(hasFieldDesc r fn))).map
               (fun fn => Finding.missingField r.line (r.getAttr litId) fn))).filter
            isMissingIdFinding
          = if (r.getAttr litId).isNone then [Finding.missingId r.line] else [] := by
      intro r hr
      rw [List.filter_append]
      have hmap : ((requiredFieldNames.filter (fun fn => !(hasFieldDesc r fn))).map
          (fun fn => Finding.missingField r.line (r.getAttr litId) fn)).filter
            isMissingIdFinding = [] := by
        apply filter_eq_nil_of_forall
        intro x hx
        obtain ⟨fn, _, rfl⟩ := List.mem_map.mp hx
        rfl
      rw [hmap, List.append_nil, ← hid r hr]
      cases hf : falsyStr (r.getAttr litId) with
      | true => rfl
      | false => rfl
    calc (viewRecordsOf root).flatMap (fun r =>
            ((if falsyStr (r.getAttr litId) then [Finding.missingId r.line] else [])
              ++ ((requiredFieldNames.filter (fun fn => !(hasFieldDesc r fn))).map
                   (fun fn => Finding.missingField r.line (r.getAttr litId) fn))).filter
                isMissingIdFinding)
        = (viewRecordsOf root).flatMap (fun r =>
            if (r.getAttr litId).isNone then [Finding.missingId r.line] else []) := by
          apply List.flatMap_congr
          intro r hr
          exact hinner r hr
      _ = ((viewRecordsOf root).filter (fun r => (r.getAttr litId).isNone)).map
            (fun r => Finding.missingId r.line) :=
          flatMap_if_singleton (fun r => (r.getAttr litId).isNone)
            (fun r => Finding.missingId r.line) (viewRecordsOf root)
  · rw [validate_odoo_view_conventions]
    simp only [List.filter_append, ht2, ha2, hs2, hf2, List.nil_append, List.append_nil]
    rw [recordFindings, filter_flatMap_comm]
    apply List.flatMap_congr
    intro r hr
    rw [List.filter_append]
    have hone : (if falsyStr (r.getAttr litId) then [Finding.missingId r.line]
        else []).filter isMissingFieldFinding = [] := by
      cases hf : falsyStr (r.getAttr litId) with
      | true => rfl
      | false => rfl
    rw [hone, List.nil_append]
    apply List.filter_eq_self.mpr
    intro x hx
    obtain ⟨fn, _, rfl⟩ := List.mem_map.mp hx
    rfl

theorem lint_missing_findings_witness :
    (validate_odoo_view_conventions wLintRoot litList).filter isMissingIdFinding
      = [Finding.missingId 2]
    ∧ (validate_odoo_view_conventions wLintRoot litList).filter isMissingFieldFinding
      = [Finding.missingField 2 none litName, Finding.missingField 2 none litModel] := by
  obtain ⟨h1, h2⟩ := lint_missing_id_and_field_findings wLintRoot litList
    (by intro r hr; fin_cases hr; rfl)
  constructor
  · rw [h1]; rfl
  · rw [h2]; rfl

/-! ### C6: the classifier follows the spec's two-phase ordered search -/

/-- The eight normalized view types (no legacy `tree`). -/
def normalizedViewTypes : List String :=
  [litList, litForm, litSearch, litKanban, litGraph, litPivot, litCalendar, litActivity]

/-- Spec-side definition (from the spec's words in §4.2): the ordered search
over a pool of elements - try the known view tags in the fixed priority order,
first match wins, `tree` normalized to `list`. -/
def specOrderedScan (pool : List Elem) : Option String :=
  viewTypeOrder.findSome? (fun vt =>
    if pool.any (fun e => e.tag == vt) then some (normalizeViewType vt) else none)

/-- Spec-side definition (from the spec's words): first search every view
record's arch subtree (direct or descendant elements) with the ordered search;
only if no record-scoped match exists, repeat the same ordered search against
the document's direct-or-descendant elements. -/
def specClassify (root : Elem) : Option String :=
  match (viewRecordsOf root).findSome? (fun r =>
      (firstArchOf r).bind (fun arch => specOrderedScan (descendants arch))) with
  | some t => some t
  | none => specOrderedScan (descendants root)

/-- **C6.** The classifier searches the arch subtrees of view-definition
records with the fixed ordered search (first match wins, `tree` mapped to
`list`); when no record-scoped match exists it repeats the same ordered search
over the document; it returns `none` exactly when neither search matches; and
every returned type is one of the eight normalized view types. -/
theorem classifier_follows_spec (root : Elem) :
    get_view_type_from_xml root = specClassify root
    ∧ (get_view_type_from_xml root = none ↔
        (recordScanViewType root = none ∧ docScanViewType root = none))
    ∧ (∀ t, get_view_type_from_xml root = some t → t ∈ normalizedViewTypes) := by
  have horder : ∀ (g : String → Bool) (t : String),
      viewTypeOrder.findSome? (fun vt =>
        if g vt then some (normalizeViewType vt) else none) = some t →
      t ∈ normalizedViewTypes := by
    intro g t h
    obtain ⟨vt, hvt, hf⟩ := List.exists_of_findSome?_eq_some h
    split at hf
    · injection hf with h2
      subst h2
      fin_cases hvt <;> decide
    · exact absurd hf (by simp)
  refine ⟨?_, ?_, ?_⟩
  · rw [get_view_type_from_xml, specClassify, recordScanViewType]
    have hfun : (fun r => match firstArchOf r with
        | none => none
        | some arch => viewTypeOrder.findSome? (fun vt =>
            if hasDescWithTag vt arch then some (normalizeViewType vt) else none))
      = (fun r : Elem =>
          (firstArchOf r).bind (fun arch => specOrderedScan (descendants arch))) := by
      funext r
      cases firstArchOf r with
      | none => rfl
      | some arch => rfl
    rw [hfun]
    have hdoc : docScanViewType root = specOrderedScan (descendants root) := rfl
    rw [hdoc]
  · rw [get_view_type_from_xml]
    cases hr : recordScanViewType root with
    | some t => simp
    | none => simp
  · intro t ht
    rw [get_view_type_from_xml] at ht
    cases hr : recordScanViewType root with
    | some t2 =>
      rw [hr] at ht
      injection ht with h2
      subst h2
      rw [recordScanViewType] at hr
      obtain ⟨r, _, hfr⟩ := List.exists_of_findSome?_eq_some hr
      cases ha : firstArchOf r with
      | none => rw [ha] at hfr; exact absurd hfr (by simp)
      | some arch =>
        rw [ha] at hfr
        exact horder (fun vt => hasDescWithTag vt arch) t2 hfr
    | none =>
      rw [hr] at ht
      exact horder (fun vt => hasDescWithTag vt root) t ht

theorem classifier_follows_spec_witness :
    get_view_type_from_xml wLintRoot = some litList
    ∧ litList ∈ normalizedViewTypes := by
  obtain ⟨h1, h2, h3⟩ := classifier_follows_spec wLintRoot
  exact ⟨rfl, h3 litList rfl⟩

/-! ### C9: nested view elements are extracted twice -/

mutual

theorem findFirstDesc_mem (p : Elem → Bool) :
    ∀ (e r : Elem), findFirstDesc p e = some r → r ∈ descendants e
  | .mk t a tx ln cs, r, h => by
    rw [findFirstDesc] at h
    rw [show descendants (Elem.mk t a tx ln cs) = descendantsList cs from rfl]
    exact findFirstDescList_mem p cs r h

theorem findFirstDescList_mem (p : Elem → Bool) :
    ∀ (cs : List Elem) (r : Elem), findFirstDescList p cs = some r →
      r ∈ descendantsList cs
  | c :: cs, r, h => by
    rw [findFirstDescList] at h
    rw [descendantsList]
    by_cases hpc : p c = true
    · rw [if_pos hpc] at h
      injection h with h2
      rw [← h2]
      exact List.mem_cons_self _ _
    · rw [if_neg hpc] at h
      cases hfc : findFirstDesc p c with
      | some r2 =>
        rw [hfc] at h
        injection h with h2
        rw [← h2]
        exact List.mem_cons_of_mem c
          (List.mem_append_left _ (findFirstDesc_mem p c r2 hfc))
      | none =>
        rw [hfc] at h
        exact List.mem_cons_of_mem c
          (List.mem_append_right _ (findFirstDescList_mem p cs r h))

end

theorem descendantsList_trans :
    ∀ (cs : List Elem) (b x : Elem), b ∈ descendantsList cs → x ∈ descendants b →
      x ∈ descendantsList cs
  | [], b, x, h, _ => by rw [descendantsList] at h; exact absurd h (by simp)
  | c :: cs, b, x, h, h2 => by
    rw [descendantsList] at h ⊢
    rcases List.mem_cons.mp h with h3 | h3
    · subst h3
      cases b with
      | mk t a tx ln bcs =>
        rw [show descendants (Elem.mk t a tx ln bcs) = descendantsList bcs from rfl] at h2
        exact List.mem_cons_of_mem _ (List.mem_append_left _ h2)
    · rcases List.mem_append.mp h3 with h4 | h4
      · apply List.mem_cons_of_mem
        apply List.mem_append_left
        cases c with
        | mk t a tx ln ccs =>
          rw [show descendants (Elem.mk t a tx ln ccs) = descendantsList ccs from rfl] at h4 ⊢
          exact descendantsList_trans ccs b x h4 h2
      · exact List.mem_cons_of_mem _
          (List.mem_append_right _ (descendantsList_trans cs b x h4 h2))

theorem descendants_trans (a b x : Elem) (h1 : b ∈ descendants a)
    (h2 : x ∈ descendants b) : x ∈ descendants a := by
  cases a with
  | mk t at2 tx ln cs =>
    rw [show descendants (Elem.mk t at2 tx ln cs) = descendantsList cs from rfl] at h1 ⊢
    exact descendantsList_trans cs b x h1 h2

/-- **C9.** `extract_view_elements_for_rng` is the record-scoped scan followed
by the whole-document scan; every element found by the record scan (a view
element of the classified tag nested inside a view record's arch field) is
also found by the whole-document scan, so it occurs in the extracted list once
for each scan and is validated twice by `validate_view_with_rng`; an unwrapped
view element is contributed only by the whole-document scan.  Occurrence
counts over the extracted list are the sums of the two scans' counts. -/
theorem extract_view_elements_twice (root : Elem) (vt : String) :
    extract_view_elements_for_rng root vt = recordScanElems root vt ++ wholeScanElems root vt
    ∧ (∀ e, e ∈ recordScanElems root vt → e ∈ wholeScanElems root vt)
    ∧ (∀ q : Elem → Bool, (extract_view_elements_for_rng root vt).countP q
        = (recordScanElems root vt).countP q + (wholeScanElems root vt).countP q) := by
  refine ⟨rfl, ?_, ?_⟩
  · intro e he
    rw [recordScanElems] at he
    obtain ⟨r, hr, hin⟩ := List.mem_flatMap.mp he
    cases ha : firstArchOf r with
    | none => rw [ha] at hin; exact absurd hin (by simp)
    | some arch =>
      rw [ha] at hin
      obtain ⟨hmem, htag⟩ := List.mem_filter.mp hin
      have harch : arch ∈ descendants r := findFirstDesc_mem isArchField r arch ha
      have hroot : e ∈ descendants root := by
        have hrr := (List.mem_filter.mp hr).1
        rcases List.mem_cons.mp hrr with h5 | h5
        · subst h5
          exact descendants_trans r arch e harch hmem
        · exact descendants_trans root arch e
            (descendants_trans root r arch h5 harch) hmem
      rw [wholeScanElems]
      exact List.mem_filter.mpr ⟨hroot, htag⟩
  · intro q
    rw [extract_view_elements_for_rng, List.countP_append]

/-- A bare `<list/>` element of the concrete witness document. -/
def wListElem : Elem := .mk litList [] "" 5 []

theorem extract_view_elements_twice_witness :
    extract_view_elements_for_rng wLintRoot litList = [wListElem, wListElem]
    ∧ wListElem ∈ wholeScanElems wLintRoot litList := by
  obtain ⟨h1, h2, h3⟩ := extract_view_elements_twice wLintRoot litList
  refine ⟨rfl, h2 wListElem ?_⟩
  rw [show recordScanElems wLintRoot litList = [wListElem] from rfl]
  exact List.mem_singleton.mpr rfl

/-! ### C8: extension-request parameter handling in the `view` command -/

def litBefore : String := "before"
def litInside : String := "inside"
def litReplace : String := "replace"

/-- The four positions offered by the interactive choice prompt. -/
def allowedPositions : List String :=
  [litAfter, litBefore, litInside, litReplace]

/-- The `if not param: param = prompt(...)` idiom of the `view` command: a
falsy (missing or empty) supplied value is replaced by the prompt's answer;
any truthy value is used as supplied. -/
def resolveParam (supplied : Option String) (prompted : String) : String :=
  if falsyStr supplied then prompted else supplied.getD ""

/-- Modelled from the spec: the `view/xpath_field.xml.j2` template (the
template file is not under src/); per the spec's scenario it renders an
`<xpath>` element with the expression and position as attributes and the new
field element inside. -/
def renderXpathFragment (xpathExpr position fieldName : String) : Elem :=
  .mk litXpath [(litExpr, xpathExpr), (litPosition, position)] "" 0
    [.mk litField [(litName, fieldName)] "" 0 []]

/-- The parameter handling and merge dispatch of the `view` command of
`extend.py`: resolve field, xpath and position (prompting only for falsy
values), render the fragment, run the search-and-update and fall back to
creating a new file.  No constraint is checked on any supplied value. -/
def extend_view_command (fieldOpt xpathOpt posOpt : Option String)
    (promptField promptXpath promptPos : String) (viewId : String)
    (files : List XmlFile) (newFile : XmlFile) : List XmlFile :=
  let field := resolveParam fieldOpt promptField
  let xp := resolveParam xpathOpt promptXpath
  let pos := resolveParam posOpt promptPos
  extend_view_files files viewId (some (renderXpathFragment xp pos field)) newFile

def wBadPos : String := "sideways"
def wField : String := "vat"

/-- `wRoot` after the command spliced in a fragment with the invalid position
`sideways`. -/
def wRootBad : Elem :=
  .mk litOdoo [] "" 1
    [.mk litRecord [(litModel, litIrUiView)] "" 2
      [wInh, .mk litField [(litName, litArch)] "" 4
        [renderXpathFragment wExpr wBadPos wField]]]

/-- **C8 counterexample.** A request supplying the position `sideways` - not
one of after/before/inside/replace - is acted upon: the command renders the
fragment with that position and mutates the matching candidate file, with no
validation rejecting the request. -/
theorem request_validation_counterexample :
    allowedPositions.contains wBadPos = false
    ∧ extend_view_command (some wField) (some wExpr) (some wBadPos)
        "" "" "" wViewId [(wFileName, some wRoot)] (wNewName, none)
        = [(wFileName, some wRootBad)] := by
  exact ⟨by decide, rfl⟩

/-- **C8 (amended).** Extension-request parameters are not validated before
use: a falsy (missing or empty) parameter is replaced by interactive
prompting - only the position prompt is restricted to the four enumerated
values - while any supplied non-empty value, including a position outside
after/before/inside/replace and arbitrary XPath or field strings, is used
as-is: the command renders the fragment with it and performs the merge. -/
theorem request_resolution_amended (fieldOpt xpathOpt : Option String) (p : String)
    (hp : p.isEmpty = false) (promptField promptXpath promptPos viewId : String)
    (files : List XmlFile) (newFile : XmlFile) :
    resolveParam (some p) promptPos = p
    ∧ extend_view_command fieldOpt xpathOpt (some p) promptField promptXpath promptPos
        viewId files newFile
      = extend_view_files files viewId
          (some (renderXpathFragment (resolveParam xpathOpt promptXpath) p
            (resolveParam fieldOpt promptField))) newFile := by
  have hres : resolveParam (some p) promptPos = p := by
    rw [resolveParam]
    rw [show falsyStr (some p) = p.isEmpty from rfl, hp]
    rw [if_neg (by simp)]
    rfl
  refine ⟨hres, ?_⟩
  rw [extend_view_command, hres]

theorem request_resolution_witness :
    extend_view_command (some wField) (some wExpr) (some wBadPos)
      "" "" "" wViewId [(wFileName, some wRoot)] (wNewName, none)
      = extend_view_files [(wFileName, some wRoot)] wViewId
          (some (renderXpathFragment wExpr wBadPos wField)) (wNewName, none) := by
  obtain ⟨h1, h2⟩ := request_resolution_amended (some wField) (some wExpr) wBadPos
    (by decide) "" "" "" wViewId [(wFileName, some wRoot)] (wNewName, none)
  rw [h2]
  rfl

end Otk
